import Mathlib

/-! Verification development for the HTML section extractor implemented in
`epollo/browser.py` (`Browser._extract_text_content` and
`Browser._extract_sections`).  Python strings are modelled as `List Char`;
each definition embeds the regular-expression or string operation that the
source applies, with the left-to-right non-overlapping scanning of `re.sub`,
`re.search` and `re.finditer` implemented by explicit recursion (a `Nat` fuel
argument set to the input length stands in where the recursion is not
structural; one scanning step always consumes at least one character, so the
fuel never runs out on the wrapper's call). -/

/-- Model of the whitespace class used by Python's `re` pattern `\s` and by
`str.strip`, restricted to the characters that arise here: the six ASCII
whitespace characters plus NEL (U+0085) and NBSP (U+00A0).  The remaining
Unicode space characters are not modelled. -/
def pyIsSpace (c : Char) : Bool :=
  c == ' ' || c == '\t' || c == '\n' || c == '\r' || c == '\u000B' ||
    c == '\u000C' || c == '\u0085' || c == ' '

/-- Case-insensitive comparison of a pattern character `p` (always lowercase
or punctuation in the patterns below) against a subject character `c`, as
`re.IGNORECASE` behaves on ASCII: either the characters agree, or `c` is an
ASCII uppercase letter whose lowercase form is `p`. -/
def ciEq (p c : Char) : Bool :=
  p == c || (decide (65 ≤ c.toNat) && decide (c.toNat ≤ 90) && p.toNat == c.toNat + 32)

/-- Whether the subject list starts with the given pattern, compared
case-insensitively character by character. -/
def startsWithCI : List Char → List Char → Bool
  | [], _ => true
  | _ :: _, [] => false
  | p :: ps, c :: cs => ciEq p c && startsWithCI ps cs

/-- Split at the first `>` character: returns the characters before it (all
distinct from `>`) and the remainder after it.  This is the deterministic
behaviour of the regex fragment `[^>]*>`. -/
def breakGt : List Char → Option (List Char × List Char)
  | [] => none
  | c :: rest =>
    if c = '>' then some ([], rest)
    else
      match breakGt rest with
      | some (a, b) => some (c :: a, b)
      | none => none

/-- Remainder of the subject after the first case-insensitive occurrence of
the pattern, or `none`.  Models the non-greedy search `.*?pat`. -/
def findCloseCI (pat : List Char) : List Char → Option (List Char)
  | [] => none
  | c :: rest =>
    if startsWithCI pat (c :: rest) then some ((c :: rest).drop pat.length)
    else findCloseCI pat rest

/-- One scanning step of `re.sub(r'<name[^>]*>.*?</name>', '', s)` with
`re.IGNORECASE | re.DOTALL` (used for `<script>` and `<style>` blocks): at a
position starting with `<name`, consume up to the first `>`, then up to the
first closing `</name>`, and drop everything consumed; otherwise keep the
character and move on.  The fuel decreases once per step. -/
def stripBlockGo (name : List Char) : Nat → List Char → List Char
  | 0, s => s
  | _ + 1, [] => []
  | f + 1, c :: rest =>
    if startsWithCI ('<' :: name) (c :: rest) then
      match breakGt ((c :: rest).drop (name.length + 1)) with
      | some (_, after) =>
        match findCloseCI ('<' :: '/' :: (name ++ ['>'])) after with
        | some rem => stripBlockGo name f rem
        | none => c :: stripBlockGo name f rest
      | none => c :: stripBlockGo name f rest
    else c :: stripBlockGo name f rest

/-- Removal of all `<name ...> ... </name>` blocks, as the source's first two
`re.sub` calls do for `script` and `style`. -/
def stripBlock (name : List Char) (s : List Char) : List Char :=
  stripBlockGo name s.length s

/-- Model of `re.sub(r'<[^>]+>', rep, s)`: every maximal-from-the-left match
`<`, one or more non-`>` characters, `>` is replaced by `rep` (a single space
in `_extract_text_content`, the empty string for heading titles). -/
def subTagsGo (rep : List Char) : Nat → List Char → List Char
  | 0, s => s
  | _ + 1, [] => []
  | f + 1, c :: rest =>
    if c = '<' then
      match breakGt rest with
      | some (a, b) => if a.isEmpty then c :: subTagsGo rep f rest else rep ++ subTagsGo rep f b
      | none => c :: subTagsGo rep f rest
    else c :: subTagsGo rep f rest

/-- Replacement of HTML tags by `rep`, wrapper around `subTagsGo`. -/
def subTags (rep : List Char) (s : List Char) : List Char :=
  subTagsGo rep s.length s

/-- The named character references modelled from Python's `html.unescape`:
the five XML entities plus `nbsp`.  The full HTML5 entity table (and its
semicolon-less variants) is not modelled; no claim depends on it. -/
def namedEntities : List (List Char × Char) :=
  [("amp;".toList, '&'), ("lt;".toList, '<'), ("gt;".toList, '>'),
   ("quot;".toList, '"'), ("apos;".toList, '\''), ("nbsp;".toList, ' ')]

/-- Lookup of a named character reference at the front of the subject. -/
def matchNamed : List (List Char × Char) → List Char → Option (Char × List Char)
  | [], _ => none
  | (pat, c) :: rest, s =>
    if List.isPrefixOf pat s then some (c, s.drop pat.length) else matchNamed rest s

/-- The maximal run of ASCII decimal digits at the front of the subject. -/
def takeDigits : List Char → List Char × List Char
  | [] => ([], [])
  | c :: rest =>
    if 48 ≤ c.toNat ∧ c.toNat ≤ 57 then
      match takeDigits rest with
      | (ds, rem) => (c :: ds, rem)
    else ([], c :: rest)

/-- Decimal value of a digit string. -/
def decVal (ds : List Char) : Nat :=
  ds.foldl (fun n c => n * 10 + (c.toNat - 48)) 0

/-- The character denoted by a numeric character reference: the code point
itself when it is a valid scalar value, U+FFFD otherwise (as `html.unescape`
produces for out-of-range or surrogate references; the CP-1252 remapping of
the range 0x80–0x9F is not modelled). -/
def charOfCodepoint (n : Nat) : Char :=
  if n < 55296 ∨ (57344 ≤ n ∧ n < 1114112) then Char.ofNat n else '�'

/-- Attempt to read one character reference immediately after a `&`:
a decimal numeric reference `#digits` with optional trailing `;`, or one of
the modelled named references. -/
def matchEntity : List Char → Option (Char × List Char)
  | '#' :: rest =>
    match takeDigits rest with
    | (ds, rem) =>
      if ds.isEmpty then none
      else
        let rem2 := match rem with
          | ';' :: r => r
          | _ => rem
        some (charOfCodepoint (decVal ds), rem2)
  | s => matchNamed namedEntities s

/-- Scanning loop of the modelled `html.unescape`: at each `&` try to read a
character reference and replace it; unmatched `&` is kept verbatim. -/
def unescapeGo : Nat → List Char → List Char
  | 0, s => s
  | _ + 1, [] => []
  | f + 1, c :: rest =>
    if c = '&' then
      match matchEntity rest with
      | some (d, rem) => d :: unescapeGo f rem
      | none => c :: unescapeGo f rest
    else c :: unescapeGo f rest

/-- Modelled `html.unescape` (restricted as documented at `namedEntities`). -/
def unescapeStr (s : List Char) : List Char :=
  unescapeGo s.length s

/-- Model of `re.sub(r'\s+', ' ', s)`: every maximal run of whitespace is
replaced by a single space.  The boolean records whether the previous
character belonged to a whitespace run. -/
def collapseGo : Bool → List Char → List Char
  | _, [] => []
  | prev, c :: rest =>
    if pyIsSpace c then
      if prev then collapseGo true rest else ' ' :: collapseGo true rest
    else c :: collapseGo false rest

/-- Whitespace-run collapsing, wrapper around `collapseGo`. -/
def collapseWs (s : List Char) : List Char :=
  collapseGo false s

/-- Given the characters following a `\n`, the remainder after the last `\n`
inside the leading whitespace run, if any: this is where the greedy match of
`\n\s*\n` ends. -/
def lastNlInRun : List Char → Option (List Char)
  | [] => none
  | c :: rest =>
    if pyIsSpace c then
      match lastNlInRun rest with
      | some r => some r
      | none => if c = '\n' then some rest else none
    else none

/-- Model of `re.sub(r'\n\s*\n', '\n\n', s)`: each greedy match of a newline,
whitespace, newline is replaced by exactly one blank line. -/
def blankSubGo : Nat → List Char → List Char
  | 0, s => s
  | _ + 1, [] => []
  | f + 1, c :: rest =>
    if c = '\n' then
      match lastNlInRun rest with
      | some r => '\n' :: '\n' :: blankSubGo f r
      | none => c :: blankSubGo f rest
    else c :: blankSubGo f rest

/-- Blank-line collapsing, wrapper around `blankSubGo`. -/
def blankLineSub (s : List Char) : List Char :=
  blankSubGo s.length s

/-- Removal of a trailing whitespace run, the right half of `str.strip`. -/
def dropTrailingWs : List Char → List Char
  | [] => []
  | c :: rest =>
    match dropTrailingWs rest with
    | [] => if pyIsSpace c then [] else [c]
    | x :: xs => c :: x :: xs

/-- Model of Python `str.strip()`: leading and trailing whitespace removed. -/
def pyStrip (s : List Char) : List Char :=
  dropTrailingWs (s.dropWhile pyIsSpace)

/-- The embedding of `Browser._extract_text_content`: remove `<script>` and
`<style>` blocks, replace the remaining tags by spaces, decode entities,
collapse whitespace runs, collapse blank-line runs, and strip the ends. -/
def extractText (s : List Char) : List Char :=
  pyStrip (blankLineSub (collapseWs (unescapeStr
    (subTags [' '] (stripBlock ("style".toList) (stripBlock ("script".toList) s))))))

/-- A heading located by `re.finditer(r'<h([1-6])[^>]*>(.*?)</h[1-6]>', html)`:
its level, its already-cleaned title, and the start and end offsets of the
whole element in the source. -/
structure Heading where
  level : Nat
  title : List Char
  hStart : Nat
  hEnd : Nat
deriving DecidableEq, Repr

/-- A `{title, content}` section as produced by `_extract_sections`. -/
structure Section where
  title : List Char
  content : List Char
deriving DecidableEq, Repr

/-- Whether the character is one of the digits `1`–`6`, as the character
class `[1-6]` of the heading pattern. -/
def hdigit (c : Char) : Bool :=
  (['1', '2', '3', '4', '5', '6']).contains c

/-- Whether the subject starts with a closing tag `</h[1-6]>` (with `h`
matched case-insensitively). -/
def isHClose : List Char → Bool
  | c1 :: c2 :: c3 :: c4 :: c5 :: _ =>
    c1 == '<' && c2 == '/' && ciEq 'h' c3 && hdigit c4 && c5 == '>'
  | _ => false

/-- Inner text before the first `</h[1-6]>` in the subject, together with the
remainder after that closing tag; `none` when no closing tag occurs.  This is
the non-greedy group `(.*?)` of the heading pattern. -/
def findHClose : List Char → Option (List Char × List Char)
  | [] => none
  | c :: rest =>
    if isHClose (c :: rest) then some ([], (c :: rest).drop 5)
    else
      match findHClose rest with
      | some (inner, rem) => some (c :: inner, rem)
      | none => none

/-- Attempt of the heading pattern `<h([1-6])[^>]*>(.*?)</h[1-6]>` anchored at
the front of the subject: on success, the level, the raw inner group, and the
total number of characters matched. -/
def matchHeading : List Char → Option (Nat × List Char × Nat)
  | c1 :: c2 :: c3 :: rest =>
    if c1 = '<' ∧ ciEq 'h' c2 = true ∧ hdigit c3 = true then
      match breakGt rest with
      | some (attrs, after) =>
        match findHClose after with
        | some (inner, _) => some (c3.toNat - 48, inner, attrs.length + inner.length + 9)
        | none => none
      | none => none
    else none
  | _ => none

/-- The cleaning applied to a heading's raw inner group in the source:
`re.sub(r'<[^>]+>', '', ...)`, then `.strip()`, then `unescape`. -/
def cleanTitle (inner : List Char) : List Char :=
  unescapeStr (pyStrip (subTags [] inner))

/-- The scanning loop of `re.finditer` for the heading pattern: try the
pattern at every position, record each non-overlapping match from the left
with its offsets, and resume after a match's end. -/
def findHeadingsGo : Nat → Nat → List Char → List Heading
  | 0, _, _ => []
  | _ + 1, _, [] => []
  | f + 1, pos, c :: rest =>
    match matchHeading (c :: rest) with
    | some (lvl, inner, len) =>
      { level := lvl, title := cleanTitle inner, hStart := pos, hEnd := pos + len } ::
        findHeadingsGo f (pos + len) ((c :: rest).drop len)
    | none => findHeadingsGo f (pos + 1) rest

/-- All headings of the document, in document order, with offsets. -/
def headingsOf (html : List Char) : List Heading :=
  findHeadingsGo html.length 0 html

/-- Python slice `s[a:b]`. -/
def pySlice (s : List Char) (a b : Nat) : List Char :=
  (s.drop a).take (b - a)

/-- Pairing of each heading with its raw content span: the HTML between the
end of the heading and the start of the next heading (or the document end for
the last heading), as the loop over `headings` computes via offsets. -/
def spansGo (html : List Char) : List Heading → List (Heading × List Char)
  | [] => []
  | [h] => [(h, pySlice html h.hEnd html.length)]
  | h :: h2 :: rest => (h, pySlice html h.hEnd h2.hStart) :: spansGo html (h2 :: rest)

/-- The heading/content-span pairs of the document. -/
def headingSpans (html : List Char) : List (Heading × List Char) :=
  spansGo html (headingsOf html)

/-- Model of `content_text.split('\n\n')` followed over each piece: the
accumulator-based scan cutting at each non-overlapping `\n\n` from the left. -/
def splitGo : List Char → List Char → List (List Char)
  | acc, [] => [acc.reverse]
  | acc, [c] => [(c :: acc).reverse]
  | acc, c :: c2 :: rest =>
    if c = '\n' ∧ c2 = '\n' then acc.reverse :: splitGo [] rest
    else splitGo (c :: acc) (c2 :: rest)

/-- Python `s.split('\n\n')`. -/
def splitParas (s : List Char) : List (List Char) :=
  splitGo [] s

/-- The list comprehension `[p.strip() for p in text.split('\n\n') if p.strip()]`. -/
def paragraphsOf (t : List Char) : List (List Char) :=
  ((splitParas t).map pyStrip).filter (fun p => !p.isEmpty)

/-- Python `'\n\n'.join(ps)`. -/
def joinNlNl : List (List Char) → List Char
  | [] => []
  | [p] => p
  | p :: ps => p ++ '\n' :: '\n' :: joinNlNl ps

/-- The `content_preview` computed for one heading's span: extract the text,
split into stripped non-empty paragraphs, keep the first six, re-join. -/
def previewOf (span : List Char) : List Char :=
  joinNlNl ((paragraphsOf (extractText span)).take 6)

/-- The conditional append `if heading['title'] and content_preview` of the
heading loop, as an `Option Section` for `filterMap`. -/
def mkSection (p : Heading × List Char) : Option Section :=
  let preview := previewOf p.2
  if p.1.title.isEmpty || preview.isEmpty then none
  else some { title := p.1.title, content := preview }

/-- The sections produced from a list of heading/span pairs, in order. -/
def sectionsOfSpans (l : List (Heading × List Char)) : List Section :=
  l.filterMap mkSection

/-- The primary, heading-based path of `_extract_sections`. -/
def headingSections (html : List Char) : List Section :=
  sectionsOfSpans (headingSpans html)

/-- Inner group of the first case-insensitive occurrence of the pattern,
scanning for `pat` and returning the characters before it; models the
group `(.*?)` of `re.search(r'<name[^>]*>(.*?)</name>', ...)`. -/
def innerUpToCI (pat : List Char) : List Char → Option (List Char × List Char)
  | [] => none
  | c :: rest =>
    if startsWithCI pat (c :: rest) then some ([], (c :: rest).drop pat.length)
    else
      match innerUpToCI pat rest with
      | some (inner, rem) => some (c :: inner, rem)
      | none => none

/-- The scanning loop of `re.search(r'<name[^>]*>(.*?)</name>', html)` with
`re.IGNORECASE | re.DOTALL`: the inner group of the first full match. -/
def findBlockGo (name : List Char) : Nat → List Char → Option (List Char)
  | 0, _ => none
  | _ + 1, [] => none
  | f + 1, c :: rest =>
    if startsWithCI ('<' :: name) (c :: rest) then
      match breakGt ((c :: rest).drop (name.length + 1)) with
      | some (_, after) =>
        match innerUpToCI ('<' :: '/' :: (name ++ ['>'])) after with
        | some (inner, _) => some inner
        | none => findBlockGo name f rest
      | none => findBlockGo name f rest
    else findBlockGo name f rest

/-- Search for the first `<name ...>...</name>` element, wrapper. -/
def findBlock (name : List Char) (html : List Char) : Option (List Char) :=
  findBlockGo name html.length html

/-- The `content_html` of the fallback path: the inner HTML of the first
`<article>`, else the first `<main>`, else the first `<body>`, else empty. -/
def workingSpan (html : List Char) : List Char :=
  match findBlock ("article".toList) html with
  | some inner => inner
  | none =>
    match findBlock ("main".toList) html with
    | some inner => inner
    | none => (findBlock ("body".toList) html).getD []

/-- The fallback path's noise-filtered paragraph list:
`[p.strip() for p in content_text.split('\n\n') if p.strip() and len(p.strip()) > 50]`. -/
def fallbackParagraphs (html : List Char) : List (List Char) :=
  ((splitParas (extractText (workingSpan html))).map pyStrip).filter
    (fun p => !p.isEmpty && decide (50 < p.length))

/-- The index sequence `range(0, min(len(paragraphs), 5), 2)`. -/
def fallbackIdxs (n : Nat) : List Nat :=
  (List.range (min n 5)).filter (fun i => i % 2 == 0)

/-- One step of the fallback loop body: from the surviving paragraphs and the
current index, the title is the paragraph truncated to 100 characters with an
ellipsis marker when longer, and the content joins up to six consecutive
paragraphs from that index; the pair is emitted only when the content is
non-empty (`if content:`). -/
def fbSection (paras : List (List Char)) (i : Nat) : Option Section :=
  let p := paras.getD i []
  let title := if 100 < p.length then p.take 100 ++ ['.', '.', '.'] else p
  let content := joinNlNl ((paras.drop i).take 6)
  if content.isEmpty then none else some { title := title, content := content }

/-- The fallback path of `_extract_sections`: walk the surviving paragraphs
two at a time, synthesizing a truncated title and a six-paragraph window. -/
def fallbackSections (html : List Char) : List Section :=
  if (workingSpan html).isEmpty then []
  else (fallbackIdxs (fallbackParagraphs html).length).filterMap
    (fbSection (fallbackParagraphs html))

/-- The embedding of `Browser._extract_sections`: the heading-based sections
when any exist, otherwise the fallback sections, truncated to ten. -/
def extractSections (html : List Char) : List Section :=
  (if (headingSections html).isEmpty then fallbackSections html
   else headingSections html).take 10

/-- Whether some two adjacent characters are both whitespace: the spec's
phrase "runs of whitespace collapsed to a single space" says this never
holds of the output. -/
def hasDoubleSpace : List Char → Bool
  | a :: b :: rest => (pyIsSpace a && pyIsSpace b) || hasDoubleSpace (b :: rest)
  | _ => false

/-- Whether the list is empty or starts with a non-whitespace character. -/
def headNonSpace : List Char → Bool
  | [] => true
  | c :: _ => !pyIsSpace c

/-- Whether the list is empty or ends with a non-whitespace character. -/
def lastNonSpace : List Char → Bool
  | [] => true
  | [c] => !pyIsSpace c
  | _ :: c :: rest => lastNonSpace (c :: rest)

/-- A heading/span pair that the spec's property quantifies over: the heading
has a non-empty cleaned title and the text following it is non-empty. -/
def qualifiesB (p : Heading × List Char) : Bool :=
  !p.1.title.isEmpty && !(extractText p.2).isEmpty

/-- Concrete input for the blank-line claim: two paragraphs separated by a
blank line and no markup. -/
def c1CexIn : List Char := "First paragraph.\n\nSecond paragraph.".toList

/-- Concrete input for the amended whitespace-collapse claim's witness. -/
def c1WIn : List Char := "a  b\n\nc".toList

/-- Concrete input whose only heading has an empty title but is followed by
non-empty text. -/
def c2CexIn : List Char := "<h1></h1><p>Hi there</p>".toList

/-- Concrete input with one titled heading followed by text. -/
def c2WIn : List Char := "<h2>Title</h2><p>Body text</p>".toList

/-- Concrete tagless input containing a doubly-escaped entity. -/
def c3CexIn : List Char := "&amp;amp;".toList

/-- Concrete tagless, entity-free input for the idempotence witness. -/
def c3WIn : List Char := " idempotent  here ".toList

/-- The concrete document of the two-section example. -/
def c4In : List Char :=
  "<h1>Intro</h1><p>Hello world.</p><h1>Next</h1><p>Bye.</p>".toList

/-- Concrete input for the paragraph-count witness. -/
def c5WIn : List Char := "<h5>W</h5><p>Five words of content here</p>".toList

/-- A fifty-character paragraph. -/
def aPara50 : List Char := List.replicate 50 'a'

/-- Concrete fallback input whose single paragraph has exactly fifty
characters. -/
def c7CexIn : List Char := "<main>".toList ++ aPara50 ++ "</main>".toList

/-- A sixty-character paragraph. -/
def bPara60 : List Char := List.replicate 60 'b'

/-- Concrete fallback input whose single paragraph has sixty characters. -/
def c7WIn : List Char := "<main>".toList ++ bPara60 ++ "</main>".toList

/-- Concrete input whose only heading has an empty title, for the invariant
claim. -/
def c8CexIn : List Char := "<h1></h1><p>Some following text</p>".toList

/-- Concrete input with one ordinary section, for the invariant witness. -/
def c8WIn : List Char := "<h3>Head</h3><p>Words here</p>".toList

/-- Concrete whitespace-only input. -/
def c9WIn : List Char := "  \n\t ".toList

/-- Concrete input with one section for the single-paragraph witness. -/
def c10WIn : List Char := "<h4>T4</h4><p>Content words</p>".toList

/-- Characterization of the case-insensitive character comparison. -/
theorem ciEq_eq_true_iff (p c : Char) :
    ciEq p c = true ↔ p = c ∨ (65 ≤ c.toNat ∧ c.toNat ≤ 90 ∧ p.toNat = c.toNat + 32) := by
  unfold ciEq
  simp [Bool.or_eq_true, Bool.and_eq_true, and_assoc]

/-- A character other than `<` never matches the pattern character `<`. -/
theorem ciEq_lt_eq_false {c : Char} (h : c ≠ '<') : ciEq '<' c = false := by
  cases hb : ciEq '<' c with
  | false => rfl
  | true =>
    rcases (ciEq_eq_true_iff '<' c).mp hb with h1 | h2
    · exact absurd h1.symm h
    · obtain ⟨ha, hb2, he⟩ := h2
      have h60 : ('<').toNat = 60 := rfl
      omega

/-- A pattern starting with `<` fails on a subject not starting with `<`. -/
theorem startsWithCI_lt {name : List Char} {c : Char} {cs : List Char} (h : c ≠ '<') :
    startsWithCI ('<' :: name) (c :: cs) = false := by
  simp [startsWithCI, ciEq_lt_eq_false h]

/-- Block removal is the identity on strings without `<`. -/
theorem stripBlockGo_no_lt (name : List Char) :
    ∀ (f : Nat) (s : List Char), '<' ∉ s → stripBlockGo name f s = s := by
  intro f
  induction f with
  | zero => intro s _; rfl
  | succ f ih =>
    intro s hs
    match s with
    | [] => rfl
    | c :: rest =>
      rw [List.mem_cons] at hs
      push_neg at hs
      obtain ⟨h1, h2⟩ := hs
      have hc : c ≠ '<' := fun e => h1 e.symm
      simp only [stripBlockGo, startsWithCI_lt hc, Bool.false_eq_true, if_false]
      rw [ih rest h2]

/-- Tag replacement is the identity on strings without `<`. -/
theorem subTagsGo_no_lt (rep : List Char) :
    ∀ (f : Nat) (s : List Char), '<' ∉ s → subTagsGo rep f s = s := by
  intro f
  induction f with
  | zero => intro s _; rfl
  | succ f ih =>
    intro s hs
    match s with
    | [] => rfl
    | c :: rest =>
      rw [List.mem_cons] at hs
      push_neg at hs
      obtain ⟨h1, h2⟩ := hs
      have hc : c ≠ '<' := fun e => h1 e.symm
      simp only [subTagsGo, if_neg hc]
      rw [ih rest h2]

/-- Entity decoding is the identity on strings without `&`. -/
theorem unescapeGo_no_amp :
    ∀ (f : Nat) (s : List Char), '&' ∉ s → unescapeGo f s = s := by
  intro f
  induction f with
  | zero => intro s _; rfl
  | succ f ih =>
    intro s hs
    match s with
    | [] => rfl
    | c :: rest =>
      rw [List.mem_cons] at hs
      push_neg at hs
      obtain ⟨h1, h2⟩ := hs
      have hc : c ≠ '&' := fun e => h1 e.symm
      simp only [unescapeGo, if_neg hc]
      rw [ih rest h2]

/-- Blank-line collapsing is the identity on strings without a newline. -/
theorem blankSubGo_no_nl :
    ∀ (f : Nat) (s : List Char), '\n' ∉ s → blankSubGo f s = s := by
  intro f
  induction f with
  | zero => intro s _; rfl
  | succ f ih =>
    intro s hs
    match s with
    | [] => rfl
    | c :: rest =>
      rw [List.mem_cons] at hs
      push_neg at hs
      obtain ⟨h1, h2⟩ := hs
      have hc : c ≠ '\n' := fun e => h1 e.symm
      simp only [blankSubGo, if_neg hc]
      rw [ih rest h2]

/-- Every character of the collapsed output is a space or comes from the
input. -/
theorem mem_collapseGo {c : Char} :
    ∀ (b : Bool) (s : List Char), c ∈ collapseGo b s → c = ' ' ∨ c ∈ s := by
  intro b s
  induction s generalizing b with
  | nil => intro h; exact absurd h (List.not_mem_nil c)
  | cons d rest ih =>
    intro h
    by_cases hd : pyIsSpace d = true
    · cases b with
      | true =>
        simp only [collapseGo, hd, if_true] at h
        rcases ih true h with h1 | h1
        · exact Or.inl h1
        · exact Or.inr (List.mem_cons_of_mem d h1)
      | false =>
        simp only [collapseGo, hd, if_true] at h
        rcases List.mem_cons.mp h with h1 | h1
        · exact Or.inl h1
        · rcases ih true h1 with h2 | h2
          · exact Or.inl h2
          · exact Or.inr (List.mem_cons_of_mem d h2)
    · simp only [collapseGo, hd, Bool.false_eq_true, if_false] at h
      rcases List.mem_cons.mp h with h1 | h1
      · exact Or.inr (h1 ▸ List.mem_cons_self d rest)
      · rcases ih false h1 with h2 | h2
        · exact Or.inl h2
        · exact Or.inr (List.mem_cons_of_mem d h2)

/-- Every whitespace character of the collapsed output is the space
character. -/
theorem collapseGo_clean {c : Char} :
    ∀ (b : Bool) (s : List Char), c ∈ collapseGo b s → pyIsSpace c = true → c = ' ' := by
  intro b s
  induction s generalizing b with
  | nil => intro h _; exact absurd h (List.not_mem_nil c)
  | cons d rest ih =>
    intro h hws
    by_cases hd : pyIsSpace d = true
    · cases b with
      | true =>
        simp only [collapseGo, hd, if_true] at h
        exact ih true h hws
      | false =>
        simp only [collapseGo, hd, if_true] at h
        rcases List.mem_cons.mp h with h1 | h1
        · exact h1
        · exact ih true h1 hws
    · simp only [collapseGo, hd, Bool.false_eq_true, if_false] at h
      rcases List.mem_cons.mp h with h1 | h1
      · rw [h1] at hws; exact absurd hws (by simp [hd])
      · exact ih false h1 hws

/-- The collapsed output contains no newline. -/
theorem noNl_collapseGo (b : Bool) (s : List Char) : '\n' ∉ collapseGo b s := by
  intro hmem
  have := collapseGo_clean b s hmem (by decide)
  exact absurd this (by decide)

/-- The collapsed output has no two adjacent whitespace characters, and in
skip mode it starts with a non-whitespace character. -/
theorem collapseGo_inv :
    ∀ s : List Char, hasDoubleSpace (collapseGo true s) = false ∧
      hasDoubleSpace (collapseGo false s) = false ∧
      headNonSpace (collapseGo true s) = true := by
  intro s
  induction s with
  | nil => exact ⟨rfl, rfl, rfl⟩
  | cons d rest ih =>
    obtain ⟨ih1, ih2, ih3⟩ := ih
    by_cases hd : pyIsSpace d = true
    · refine ⟨?_, ?_, ?_⟩
      · simpa only [collapseGo, hd, if_true] using ih1
      · simp only [collapseGo, hd, if_true]
        cases hL : collapseGo true rest with
        | nil => rfl
        | cons x xs =>
          rw [hL] at ih3 ih1
          simp only [headNonSpace] at ih3
          simp only [hasDoubleSpace, ih1, Bool.or_false, Bool.and_eq_false_iff]
          right
          simpa using ih3
      · simpa only [collapseGo, hd, if_true] using ih3
    · have hstep : ∀ b0 : Bool, collapseGo b0 (d :: rest) = d :: collapseGo false rest := by
        intro b0
        simp only [collapseGo, hd, Bool.false_eq_true, if_false]
      have hcons : hasDoubleSpace (d :: collapseGo false rest) = false := by
        cases hL : collapseGo false rest with
        | nil => rfl
        | cons x xs =>
          rw [hL] at ih2
          simp only [hasDoubleSpace, ih2, Bool.or_false, Bool.and_eq_false_iff]
          left
          simpa using hd
      refine ⟨?_, ?_, ?_⟩
      · rw [hstep true]; exact hcons
      · rw [hstep false]; exact hcons
      · rw [hstep true]
        simp only [headNonSpace]
        simpa using hd

/-- Characters surviving `dropWhile` come from the input. -/
theorem mem_dropWhileChar {c : Char} {p : Char → Bool} :
    ∀ {l : List Char}, c ∈ l.dropWhile p → c ∈ l := by
  intro l
  induction l with
  | nil => intro h; exact h
  | cons d rest ih =>
    intro h
    by_cases hd : p d = true
    · rw [List.dropWhile_cons_of_pos hd] at h
      exact List.mem_cons_of_mem d (ih h)
    · rw [List.dropWhile_cons_of_neg hd] at h
      exact h

/-- Characters surviving trailing-whitespace removal come from the input. -/
theorem mem_dropTrailingWs {c : Char} :
    ∀ {l : List Char}, c ∈ dropTrailingWs l → c ∈ l := by
  intro l
  induction l with
  | nil => intro h; exact h
  | cons d rest ih =>
    intro h
    rw [dropTrailingWs] at h
    rcases hL : dropTrailingWs rest with _ | ⟨x, xs⟩
    · rw [hL] at h
      by_cases hd : pyIsSpace d = true
      · rw [if_pos hd] at h; exact absurd h (List.not_mem_nil c)
      · rw [if_neg hd] at h
        rcases List.mem_cons.mp h with h1 | h1
        · exact h1 ▸ List.mem_cons_self d rest
        · exact absurd h1 (List.not_mem_nil c)
    · rw [hL] at h
      rcases List.mem_cons.mp h with h1 | h1
      · exact h1 ▸ List.mem_cons_self d rest
      · exact List.mem_cons_of_mem d (ih (hL ▸ h1))

/-- Characters surviving `strip` come from the input. -/
theorem mem_pyStrip {c : Char} {l : List Char} (h : c ∈ pyStrip l) : c ∈ l :=
  mem_dropWhileChar (mem_dropTrailingWs h)

/-- No-double-whitespace is inherited by the tail. -/
theorem hds_tail {c : Char} {l : List Char} (h : hasDoubleSpace (c :: l) = false) :
    hasDoubleSpace l = false := by
  cases l with
  | nil => rfl
  | cons d rest =>
    simp only [hasDoubleSpace, Bool.or_eq_false_iff] at h
    exact h.2

/-- No-double-whitespace is preserved by `dropWhile`. -/
theorem hds_dropWhile {p : Char → Bool} :
    ∀ {l : List Char}, hasDoubleSpace l = false → hasDoubleSpace (l.dropWhile p) = false := by
  intro l
  induction l with
  | nil => intro h; exact h
  | cons d rest ih =>
    intro h
    by_cases hd : p d = true
    · rw [List.dropWhile_cons_of_pos hd]
      exact ih (hds_tail h)
    · rw [List.dropWhile_cons_of_neg hd]
      exact h

/-- Trailing-whitespace removal keeps the head character. -/
theorem dropTrailingWs_head :
    ∀ {c x : Char} {l xs : List Char}, dropTrailingWs (c :: l) = x :: xs → x = c := by
  intro c x l xs h
  rw [dropTrailingWs] at h
  rcases hL : dropTrailingWs l with _ | ⟨y, ys⟩
  · rw [hL] at h
    by_cases hd : pyIsSpace c = true
    · rw [if_pos hd] at h; exact absurd h (by simp)
    · rw [if_neg hd] at h
      injection h with h1 _
      exact h1.symm
  · rw [hL] at h
    injection h with h1 _
    exact h1.symm

/-- No-double-whitespace is preserved by trailing-whitespace removal. -/
theorem hds_dropTrailingWs :
    ∀ {l : List Char}, hasDoubleSpace l = false → hasDoubleSpace (dropTrailingWs l) = false := by
  intro l
  induction l with
  | nil => intro h; exact h
  | cons d rest ih =>
    intro h
    rw [dropTrailingWs]
    rcases hL : dropTrailingWs rest with _ | ⟨x, xs⟩
    · by_cases hd : pyIsSpace d = true
      · rw [if_pos hd]; rfl
      · rw [if_neg hd]; rfl
    · have hih := ih (hds_tail h)
      rw [hL] at hih
      cases rest with
      | nil => simp [dropTrailingWs] at hL
      | cons y ys =>
        have hxy : x = y := dropTrailingWs_head hL
        simp only [hasDoubleSpace, Bool.or_eq_false_iff] at h ⊢
        exact ⟨by rw [hxy]; exact h.1, hih⟩

/-- Trailing-whitespace removal ends with a non-whitespace character. -/
theorem lastNS_dropTrailingWs : ∀ (l : List Char), lastNonSpace (dropTrailingWs l) = true := by
  intro l
  induction l with
  | nil => rfl
  | cons d rest ih =>
    rw [dropTrailingWs]
    rcases hL : dropTrailingWs rest with _ | ⟨x, xs⟩
    · by_cases hd : pyIsSpace d = true
      · rw [if_pos hd]; rfl
      · rw [if_neg hd]; simp [lastNonSpace, hd]
    · rw [hL] at ih
      simpa only [lastNonSpace] using ih

/-- Trailing-whitespace removal fixes lists already ending without
whitespace. -/
theorem dropTrailingWs_id : ∀ {l : List Char}, lastNonSpace l = true → dropTrailingWs l = l := by
  intro l
  induction l with
  | nil => intro _; rfl
  | cons d rest ih =>
    intro h
    cases rest with
    | nil =>
      have hd : pyIsSpace d = false := by simpa [lastNonSpace] using h
      simp [dropTrailingWs, hd]
    | cons y ys =>
      have h2 : lastNonSpace (y :: ys) = true := by simpa only [lastNonSpace] using h
      rw [dropTrailingWs, ih h2]

/-- The whitespace-dropped list starts with a non-whitespace character. -/
theorem headNS_dropWhile : ∀ (l : List Char), headNonSpace (l.dropWhile pyIsSpace) = true := by
  intro l
  induction l with
  | nil => rfl
  | cons d rest ih =>
    by_cases hd : pyIsSpace d = true
    · rw [List.dropWhile_cons_of_pos hd]; exact ih
    · rw [List.dropWhile_cons_of_neg (by simp [hd])]
      simp [headNonSpace, hd]

/-- Leading-whitespace removal fixes lists already starting without
whitespace. -/
theorem dropWhile_id_of_headNS : ∀ {l : List Char}, headNonSpace l = true →
    l.dropWhile pyIsSpace = l := by
  intro l h
  cases l with
  | nil => rfl
  | cons d rest =>
    have hd : pyIsSpace d = false := by simpa [headNonSpace] using h
    exact List.dropWhile_cons_of_neg (by simp [hd])

/-- Trailing-whitespace removal preserves a non-whitespace head. -/
theorem headNS_dropTrailingWs : ∀ {l : List Char}, headNonSpace l = true →
    headNonSpace (dropTrailingWs l) = true := by
  intro l h
  cases l with
  | nil => rfl
  | cons d rest =>
    cases hL : dropTrailingWs (d :: rest) with
    | nil => rfl
    | cons x xs =>
      have hx : x = d := dropTrailingWs_head hL
      simp only [headNonSpace] at h ⊢
      rw [hx]
      exact h

/-- The stripped list starts with a non-whitespace character. -/
theorem pyStrip_headNS (l : List Char) : headNonSpace (pyStrip l) = true :=
  headNS_dropTrailingWs (headNS_dropWhile l)

/-- The stripped list ends with a non-whitespace character. -/
theorem pyStrip_lastNS (l : List Char) : lastNonSpace (pyStrip l) = true :=
  lastNS_dropTrailingWs _

/-- Stripping preserves no-double-whitespace. -/
theorem pyStrip_hds {l : List Char} (h : hasDoubleSpace l = false) :
    hasDoubleSpace (pyStrip l) = false :=
  hds_dropTrailingWs (hds_dropWhile h)

/-- Stripping is idempotent. -/
theorem pyStrip_idem (l : List Char) : pyStrip (pyStrip l) = pyStrip l := by
  unfold pyStrip
  rw [dropWhile_id_of_headNS (headNS_dropTrailingWs (headNS_dropWhile l))]
  exact dropTrailingWs_id (lastNS_dropTrailingWs _)

/-- Collapsing fixes a list whose whitespace is all single spaces. -/
theorem collapseGo_fixed :
    ∀ (y : List Char), (∀ c ∈ y, pyIsSpace c = true → c = ' ') → hasDoubleSpace y = false →
      collapseGo false y = y ∧ (headNonSpace y = true → collapseGo true y = y) := by
  intro y
  induction y with
  | nil => intro _ _; exact ⟨rfl, fun _ => rfl⟩
  | cons d rest ih =>
    intro hclean hds
    have hcleanR : ∀ c ∈ rest, pyIsSpace c = true → c = ' ' :=
      fun c hc => hclean c (List.mem_cons_of_mem d hc)
    obtain ⟨ih1, ih2⟩ := ih hcleanR (hds_tail hds)
    by_cases hd : pyIsSpace d = true
    · have hd' : d = ' ' := hclean d (List.mem_cons_self d rest) hd
      constructor
      · simp only [collapseGo, hd, if_true]
        have hR : collapseGo true rest = rest := by
          cases rest with
          | nil => rfl
          | cons y2 ys =>
            apply ih2
            simp only [hasDoubleSpace, Bool.or_eq_false_iff] at hds
            have hy2 : pyIsSpace y2 = false := by
              cases hy : pyIsSpace y2 with
              | false => rfl
              | true =>
                exfalso
                have h1 := hds.1
                rw [hd, hy] at h1
                simp at h1
            simp [headNonSpace, hy2]
        rw [hR, hd']
        simp
      · intro hh
        simp only [headNonSpace] at hh
        rw [hd] at hh
        exact absurd hh (by decide)
    · constructor
      · simp only [collapseGo, hd, Bool.false_eq_true, if_false]
        rw [ih1]
      · intro _
        simp only [collapseGo, hd, Bool.false_eq_true, if_false]
        rw [ih1]

/-- The collapsed output contains no newline (wrapper form). -/
theorem noNl_collapseWs (s : List Char) : '\n' ∉ collapseWs s :=
  noNl_collapseGo false s

/-- Every whitespace character of the collapsed output is a space (wrapper
form). -/
theorem collapseWs_clean {u : List Char} {c : Char} (h : c ∈ collapseWs u)
    (hws : pyIsSpace c = true) : c = ' ' :=
  collapseGo_clean false u h hws

/-- Since the collapsed text contains no newline, the blank-line pass of
`_extract_text_content` is the identity, and the whole extraction is a strip
of the collapsed decoded tag-stripped text. -/
theorem extractText_eq (s : List Char) :
    extractText s = pyStrip (collapseWs (unescapeStr (subTags [' ']
      (stripBlock ("style".toList) (stripBlock ("script".toList) s))))) := by
  unfold extractText blankLineSub
  rw [blankSubGo_no_nl _ _ (noNl_collapseWs _)]

/-- The extracted text contains no newline. -/
theorem extractText_noNl (s : List Char) : '\n' ∉ extractText s := by
  rw [extractText_eq]
  intro hmem
  exact noNl_collapseWs _ (mem_pyStrip hmem)

/-- The extracted text is already stripped. -/
theorem pyStrip_extractText (s : List Char) : pyStrip (extractText s) = extractText s := by
  rw [extractText_eq]
  exact pyStrip_idem _

/-- Every whitespace character of the extracted text is a space. -/
theorem clean_extractText {s : List Char} {c : Char} (h : c ∈ extractText s)
    (hws : pyIsSpace c = true) : c = ' ' := by
  rw [extractText_eq] at h
  exact collapseWs_clean (mem_pyStrip h) hws

/-- The extracted text has no two adjacent whitespace characters. -/
theorem hds_extractText (s : List Char) : hasDoubleSpace (extractText s) = false := by
  rw [extractText_eq]
  exact pyStrip_hds (collapseGo_inv _).2.1

/-- Splitting on blank lines is trivial for newline-free text. -/
theorem splitGo_no_nl : ∀ (t acc : List Char), '\n' ∉ t → splitGo acc t = [acc.reverse ++ t] := by
  intro t
  induction t with
  | nil => intro acc _; simp [splitGo]
  | cons c rest ih =>
    intro acc h
    rw [List.mem_cons] at h
    push_neg at h
    obtain ⟨h1, h2⟩ := h
    have hc : c ≠ '\n' := fun e => h1 e.symm
    cases rest with
    | nil => simp [splitGo]
    | cons c2 rest2 =>
      have hcond : ¬(c = '\n' ∧ c2 = '\n') := fun hh => hc hh.1
      rw [splitGo, if_neg hcond, ih (c :: acc) h2]
      simp

/-- A newline-free text is its own single paragraph. -/
theorem splitParas_no_nl {t : List Char} (h : '\n' ∉ t) : splitParas t = [t] := by
  unfold splitParas
  rw [splitGo_no_nl t [] h]
  simp

/-- Since extracted text is newline-free and stripped, the six-paragraph
preview of a span is just its extracted text. -/
theorem previewOf_eq (span : List Char) : previewOf span = extractText span := by
  unfold previewOf paragraphsOf
  rw [splitParas_no_nl (extractText_noNl span), List.map_cons, List.map_nil,
    pyStrip_extractText]
  by_cases hE : (extractText span).isEmpty = true
  · rw [List.isEmpty_iff] at hE
    rw [hE]
    rfl
  · have hcond : (!(extractText span).isEmpty) = true := by
      cases hb : (extractText span).isEmpty with
      | true => exact absurd hb hE
      | false => rfl
    rw [List.filter_cons, if_pos hcond, List.filter_nil]
    rfl

/-- The heading loop's conditional append, rephrased through `qualifiesB`. -/
theorem mkSection_eq (p : Heading × List Char) :
    mkSection p = if qualifiesB p = true then
      some { title := p.1.title, content := extractText p.2 } else none := by
  unfold mkSection qualifiesB
  rw [previewOf_eq]
  cases ht : p.1.title.isEmpty with
  | true => simp [ht]
  | false =>
    cases hc : (extractText p.2).isEmpty with
    | true => simp [ht, hc]
    | false => simp [ht, hc]

/-- Every heading-path section comes from a qualifying heading/span pair and
carries that heading's title and the span's extracted text. -/
theorem mem_headingSections {html : List Char} {sec : Section}
    (h : sec ∈ headingSections html) :
    ∃ p ∈ headingSpans html, qualifiesB p = true ∧
      sec = { title := p.1.title, content := extractText p.2 } := by
  unfold headingSections sectionsOfSpans at h
  rw [List.mem_filterMap] at h
  obtain ⟨p, hp, he⟩ := h
  rw [mkSection_eq] at he
  by_cases hq : qualifiesB p = true
  · rw [if_pos hq] at he
    exact ⟨p, hp, hq, (Option.some.inj he).symm⟩
  · rw [if_neg hq] at he
    exact absurd he (by simp)

/-- Heading-path sections have non-empty title and non-empty, newline-free
content. -/
theorem headingSections_props {html : List Char} {sec : Section}
    (h : sec ∈ headingSections html) :
    sec.title ≠ [] ∧ sec.content ≠ [] ∧ '\n' ∉ sec.content := by
  obtain ⟨p, _, hq, he⟩ := mem_headingSections h
  unfold qualifiesB at hq
  rw [Bool.and_eq_true] at hq
  obtain ⟨hq1, hq2⟩ := hq
  refine ⟨?_, ?_, ?_⟩
  · rw [he]
    show p.1.title ≠ []
    intro e
    rw [e] at hq1
    exact absurd hq1 (by decide)
  · rw [he]
    show extractText p.2 ≠ []
    intro e
    rw [e] at hq2
    exact absurd hq2 (by decide)
  · rw [he]
    exact extractText_noNl _

/-- The fallback paragraph list is empty or the single extracted text of the
working span, the latter exactly when that text is non-empty and longer than
fifty characters. -/
theorem fallbackParagraphs_charac (html : List Char) :
    fallbackParagraphs html = [] ∨
      (fallbackParagraphs html = [extractText (workingSpan html)] ∧
        extractText (workingSpan html) ≠ [] ∧
        50 < (extractText (workingSpan html)).length) := by
  unfold fallbackParagraphs
  rw [splitParas_no_nl (extractText_noNl _), List.map_cons, List.map_nil,
    pyStrip_extractText, List.filter_cons, List.filter_nil]
  by_cases hcond : (!(extractText (workingSpan html)).isEmpty &&
      decide (50 < (extractText (workingSpan html)).length)) = true
  · rw [if_pos hcond]
    right
    rw [Bool.and_eq_true] at hcond
    obtain ⟨h1, h2⟩ := hcond
    refine ⟨rfl, ?_, of_decide_eq_true h2⟩
    intro e
    rw [e] at h1
    exact absurd h1 (by decide)
  · rw [if_neg hcond]
    left
    rfl

/-- The fallback section list is empty or a single section whose content is
the extracted text of the working span. -/
theorem fallbackSections_charac (html : List Char) :
    fallbackSections html = [] ∨
      ∃ ttl : List Char, ttl ≠ [] ∧
        extractText (workingSpan html) ≠ [] ∧
        fallbackSections html =
          [{ title := ttl, content := extractText (workingSpan html) }] := by
  unfold fallbackSections
  by_cases hW : (workingSpan html).isEmpty = true
  · rw [if_pos hW]
    left
    rfl
  · rw [if_neg hW]
    rcases fallbackParagraphs_charac html with hP | ⟨hP, hne, hlen⟩
    · rw [hP]
      left
      rfl
    · rw [hP]
      right
      have hf0 : fbSection [extractText (workingSpan html)] 0 =
          some { title := if 100 < (extractText (workingSpan html)).length then
                   (extractText (workingSpan html)).take 100 ++ ['.', '.', '.']
                 else extractText (workingSpan html),
                 content := extractText (workingSpan html) } := by
        unfold fbSection
        rw [List.getD_cons_zero, List.drop_zero]
        have hj : joinNlNl (List.take 6 [extractText (workingSpan html)]) =
            extractText (workingSpan html) := rfl
        rw [hj]
        rw [if_neg (fun hh : (extractText (workingSpan html)).isEmpty = true =>
          hne (by rwa [List.isEmpty_iff] at hh))]
      refine ⟨if 100 < (extractText (workingSpan html)).length then
          (extractText (workingSpan html)).take 100 ++ ['.', '.', '.']
        else extractText (workingSpan html), ?_, hne, ?_⟩
      · by_cases hlen100 : 100 < (extractText (workingSpan html)).length
        · rw [if_pos hlen100]
          simp
        · rw [if_neg hlen100]
          exact hne
      · show List.filterMap (fbSection [extractText (workingSpan html)])
            (fallbackIdxs [extractText (workingSpan html)].length) = _
        have hidx : fallbackIdxs [extractText (workingSpan html)].length = [0] := rfl
        rw [hidx, List.filterMap_cons, hf0, List.filterMap_nil]

/-- Fallback sections have non-empty title and non-empty, newline-free
content. -/
theorem fallbackSections_props {html : List Char} {sec : Section}
    (h : sec ∈ fallbackSections html) :
    sec.title ≠ [] ∧ sec.content ≠ [] ∧ '\n' ∉ sec.content := by
  rcases fallbackSections_charac html with hF | ⟨ttl, httl, hne, hF⟩
  · rw [hF] at h
    exact absurd h (List.not_mem_nil sec)
  · rw [hF] at h
    have he := List.mem_singleton.mp h
    rw [he]
    exact ⟨httl, hne, extractText_noNl _⟩

/-- A returned section comes from the heading path or from the fallback. -/
theorem mem_extractSections {html : List Char} {sec : Section}
    (h : sec ∈ extractSections html) :
    sec ∈ headingSections html ∨ sec ∈ fallbackSections html := by
  unfold extractSections at h
  by_cases hH : (headingSections html).isEmpty = true
  · rw [if_pos hH] at h
    exact Or.inr ((List.take_sublist 10 _).subset h)
  · rw [if_neg hH] at h
    exact Or.inl ((List.take_sublist 10 _).subset h)

/-- Every returned section has non-empty title and non-empty, newline-free
content. -/
theorem extractSections_props {html : List Char} {sec : Section}
    (h : sec ∈ extractSections html) :
    sec.title ≠ [] ∧ sec.content ≠ [] ∧ '\n' ∉ sec.content := by
  rcases mem_extractSections h with h1 | h1
  · exact headingSections_props h1
  · exact fallbackSections_props h1

/-- The heading pattern fails at a position not starting with `<`. -/
theorem matchHeading_ne_lt {c : Char} {cs : List Char} (h : c ≠ '<') :
    matchHeading (c :: cs) = none := by
  match cs with
  | [] => rfl
  | [_] => rfl
  | c2 :: c3 :: rest =>
    rw [matchHeading, if_neg (fun hh => h hh.1)]

/-- No headings are found in a document without `<`. -/
theorem findHeadingsGo_no_lt :
    ∀ (f pos : Nat) (s : List Char), '<' ∉ s → findHeadingsGo f pos s = [] := by
  intro f
  induction f with
  | zero => intro pos s _; rfl
  | succ f ih =>
    intro pos s hs
    match s with
    | [] => rfl
    | c :: rest =>
      rw [List.mem_cons] at hs
      push_neg at hs
      obtain ⟨h1, h2⟩ := hs
      have hc : c ≠ '<' := fun e => h1 e.symm
      rw [findHeadingsGo, matchHeading_ne_lt hc]
      exact ih (pos + 1) rest h2

/-- Wrapper form of the no-heading lemma. -/
theorem headingsOf_no_lt {html : List Char} (h : '<' ∉ html) : headingsOf html = [] :=
  findHeadingsGo_no_lt html.length 0 html h

/-- The element search fails in a document without `<`. -/
theorem findBlockGo_no_lt (name : List Char) :
    ∀ (f : Nat) (s : List Char), '<' ∉ s → findBlockGo name f s = none := by
  intro f
  induction f with
  | zero => intro pos _; rfl
  | succ f ih =>
    intro s hs
    match s with
    | [] => rfl
    | c :: rest =>
      rw [List.mem_cons] at hs
      push_neg at hs
      obtain ⟨h1, h2⟩ := hs
      have hc : c ≠ '<' := fun e => h1 e.symm
      rw [findBlockGo, startsWithCI_lt hc]
      simp only [Bool.false_eq_true, if_false]
      exact ih rest h2

/-- The fallback working span of a document without `<` is empty. -/
theorem workingSpan_no_lt {html : List Char} (h : '<' ∉ html) : workingSpan html = [] := by
  unfold workingSpan findBlock
  rw [findBlockGo_no_lt _ _ _ h, findBlockGo_no_lt _ _ _ h, findBlockGo_no_lt _ _ _ h]
  rfl

/-- A character that is not whitespace does not occur in an all-whitespace
string. -/
theorem not_mem_of_all_ws {s : List Char} {c : Char} (hall : s.all pyIsSpace = true)
    (hc : pyIsSpace c = false) : c ∉ s := by
  intro hmem
  rw [List.all_eq_true] at hall
  have hx := hall c hmem
  rw [hc] at hx
  exact absurd hx (by decide)

/-- Collapsing an all-whitespace string gives nothing (in skip mode) or a
single space. -/
theorem collapseGo_all_ws :
    ∀ {s : List Char}, s.all pyIsSpace = true →
      collapseGo true s = [] ∧ (s = [] ∨ collapseGo false s = [' ']) := by
  intro s
  induction s with
  | nil => intro _; exact ⟨rfl, Or.inl rfl⟩
  | cons d rest ih =>
    intro hall
    rw [List.all_cons, Bool.and_eq_true] at hall
    obtain ⟨hd, hrest⟩ := hall
    obtain ⟨ih1, _⟩ := ih hrest
    constructor
    · simp only [collapseGo, hd, if_true]
      exact ih1
    · right
      simp only [collapseGo, hd, if_true, Bool.false_eq_true, if_false]
      rw [ih1]

/-- Extraction of an all-whitespace string yields the empty string. -/
theorem extractText_all_ws {s : List Char} (hall : s.all pyIsSpace = true) :
    extractText s = [] := by
  have hlt : '<' ∉ s := not_mem_of_all_ws hall (by decide)
  have hamp : '&' ∉ s := not_mem_of_all_ws hall (by decide)
  rw [extractText_eq]
  unfold stripBlock subTags unescapeStr
  rw [stripBlockGo_no_lt _ _ _ hlt, stripBlockGo_no_lt _ _ _ hlt,
    subTagsGo_no_lt _ _ _ hlt, unescapeGo_no_amp _ _ hamp]
  rcases (collapseGo_all_ws hall).2 with h0 | h1
  · subst h0
    rfl
  · unfold collapseWs
    rw [h1]
    rfl

/-- Section extraction of a document without `<` yields no sections. -/
theorem extractSections_no_lt {html : List Char} (h : '<' ∉ html) :
    extractSections html = [] := by
  unfold extractSections
  have hH : headingSections html = [] := by
    unfold headingSections headingSpans
    rw [headingsOf_no_lt h]
    rfl
  have hF : fallbackSections html = [] := by
    unfold fallbackSections
    rw [workingSpan_no_lt h]
    rfl
  rw [hH, hF]
  rfl

/-- When some heading/span pair qualifies, the first qualifying one heads the
heading-path section list. -/
theorem sectionsOfSpans_first_qualifying :
    ∀ l : List (Heading × List Char), l.any qualifiesB = true →
      ∃ p, p ∈ l ∧ qualifiesB p = true ∧ ∃ rest,
        sectionsOfSpans l = { title := p.1.title, content := extractText p.2 } :: rest := by
  intro l
  induction l with
  | nil => intro h; exact absurd h (by decide)
  | cons q l' ih =>
    intro h
    by_cases hq : qualifiesB q = true
    · refine ⟨q, List.mem_cons_self q l', hq, sectionsOfSpans l', ?_⟩
      unfold sectionsOfSpans
      rw [List.filterMap_cons, mkSection_eq, if_pos hq]
    · rw [List.any_cons, Bool.or_eq_true] at h
      rcases h with h | h
      · exact absurd h hq
      · obtain ⟨p, hp, hqp, rest, heq⟩ := ih h
        refine ⟨p, List.mem_cons_of_mem q hp, hqp, rest, ?_⟩
        unfold sectionsOfSpans at heq ⊢
        rw [List.filterMap_cons, mkSection_eq, if_neg hq, heq]

/-- The heading/span pairing preserves the heading list. -/
theorem spansGo_map_fst (html : List Char) :
    ∀ hs : List Heading, (spansGo html hs).map Prod.fst = hs := by
  intro hs
  induction hs with
  | nil => rfl
  | cons h tl ih =>
    cases tl with
    | nil => rfl
    | cons h2 rest =>
      rw [spansGo, List.map_cons, ih]

/-- Section titles are a sublist of the heading titles, in order. -/
theorem sectionsOfSpans_titles_sublist :
    ∀ l : List (Heading × List Char),
      List.Sublist ((sectionsOfSpans l).map Section.title)
        (l.map (fun p => p.1.title)) := by
  intro l
  induction l with
  | nil => exact List.Sublist.refl []
  | cons q l' ih =>
    unfold sectionsOfSpans at ih ⊢
    rw [List.filterMap_cons, mkSection_eq]
    by_cases hq : qualifiesB q = true
    · rw [if_pos hq, List.map_cons, List.map_cons]
      exact List.Sublist.cons₂ _ ih
    · rw [if_neg hq, List.map_cons]
      exact List.Sublist.cons _ ih

/-- The heading-path section titles are a sublist of the document's heading
titles, hence in document order. -/
theorem headingSections_titles_sublist (html : List Char) :
    List.Sublist ((headingSections html).map Section.title)
      ((headingsOf html).map Heading.title) := by
  have h1 := sectionsOfSpans_titles_sublist (headingSpans html)
  have h2 : (headingSpans html).map (fun p => p.1.title) =
      (headingsOf html).map Heading.title := by
    calc (headingSpans html).map (fun p => p.1.title)
        = ((headingSpans html).map Prod.fst).map Heading.title := by
          rw [List.map_map]
          rfl
      _ = (headingsOf html).map Heading.title := by
          unfold headingSpans
          rw [spansGo_map_fst html (headingsOf html)]
  rwa [h2] at h1

/-- On tag-free, entity-free input, extraction is collapse-then-strip. -/
theorem extractText_no_lt_amp {s : List Char} (hlt : '<' ∉ s) (hamp : '&' ∉ s) :
    extractText s = pyStrip (collapseWs s) := by
  rw [extractText_eq]
  unfold stripBlock subTags unescapeStr
  rw [stripBlockGo_no_lt _ _ _ hlt, stripBlockGo_no_lt _ _ _ hlt,
    subTagsGo_no_lt _ _ _ hlt, unescapeGo_no_amp _ _ hamp]

/-- Characters of the collapsed-and-stripped text are spaces or input
characters. -/
theorem mem_strip_collapse {s : List Char} {c : Char}
    (h : c ∈ pyStrip (collapseWs s)) : c = ' ' ∨ c ∈ s :=
  mem_collapseGo false s (mem_pyStrip h)

/-- Collapsing fixes an already-clean list (wrapper form). -/
theorem collapseWs_fixed {y : List Char} (hclean : ∀ c ∈ y, pyIsSpace c = true → c = ' ')
    (hhds : hasDoubleSpace y = false) : collapseWs y = y :=
  (collapseGo_fixed y hclean hhds).1

/-- On tag-free, entity-free input, a second extraction changes nothing. -/
theorem extractText_idem_aux {s : List Char} (hlt : '<' ∉ s) (hamp : '&' ∉ s) :
    extractText (extractText s) = extractText s := by
  have hylt : '<' ∉ pyStrip (collapseWs s) := by
    intro hm
    rcases mem_strip_collapse hm with h1 | h1
    · exact absurd h1 (by decide)
    · exact hlt h1
  have hyamp : '&' ∉ pyStrip (collapseWs s) := by
    intro hm
    rcases mem_strip_collapse hm with h1 | h1
    · exact absurd h1 (by decide)
    · exact hamp h1
  have hclean : ∀ c ∈ pyStrip (collapseWs s), pyIsSpace c = true → c = ' ' :=
    fun c hc hws => collapseWs_clean (mem_pyStrip hc) hws
  have hhds : hasDoubleSpace (pyStrip (collapseWs s)) = false :=
    pyStrip_hds (collapseGo_inv _).2.1
  rw [extractText_no_lt_amp hlt hamp, extractText_no_lt_amp hylt hyamp,
    collapseWs_fixed hclean hhds, pyStrip_idem]

/-- Claim C1, counterexample: on the tagless input with a blank line between
two paragraphs, `extract_text` collapses the blank line to a single space, so
no blank-line boundary of the source survives in the output. -/
theorem blankLine_not_preserved_cex :
    '\n' ∈ c1CexIn ∧
      extractText c1CexIn = ("First paragraph. Second paragraph.".toList) ∧
      '\n' ∉ extractText c1CexIn :=
  ⟨by decide, by decide, by decide⟩

/-- Claim C1 (amended): for every input string, `extract_text` collapses
every whitespace run (blank lines included) to one space character: in the
output, every whitespace character is a space, no two adjacent characters are
whitespace, and no newline occurs — blank-line boundaries are not preserved. -/
theorem extractText_whitespace_collapse (s : List Char) :
    (∀ c ∈ extractText s, pyIsSpace c = true → c = ' ') ∧
      hasDoubleSpace (extractText s) = false ∧ '\n' ∉ extractText s :=
  ⟨fun _ hc hws => clean_extractText hc hws, hds_extractText s, extractText_noNl s⟩

/-- Witness for the amended claim C1 at a concrete input. -/
theorem extractText_whitespace_collapse_witness :
    ' ' = ' ' ∧ hasDoubleSpace (extractText c1WIn) = false ∧ '\n' ∉ extractText c1WIn :=
  ⟨(extractText_whitespace_collapse c1WIn).1 ' ' (by decide) (by decide),
    (extractText_whitespace_collapse c1WIn).2.1,
    (extractText_whitespace_collapse c1WIn).2.2⟩

/-- Claim C3, counterexample: the tagless input with a doubly-escaped entity
is not extracted idempotently, because entity decoding reapplies. -/
theorem extractText_not_idempotent_cex :
    '<' ∉ c3CexIn ∧
      extractText c3CexIn = ("&amp;".toList) ∧
      extractText (extractText c3CexIn) = ("&".toList) ∧
      extractText (extractText c3CexIn) ≠ extractText c3CexIn :=
  ⟨by decide, by decide, by decide, by decide⟩

/-- Claim C3 (amended): `extract_text` is idempotent on strings that contain
no `<` (hence no HTML tags) and no `&` (hence no entity references). -/
theorem extractText_idempotent_on_plain_text (x : List Char)
    (hlt : '<' ∉ x) (hamp : '&' ∉ x) :
    extractText (extractText x) = extractText x :=
  extractText_idem_aux hlt hamp

/-- Witness for the amended claim C3 at a concrete input. -/
theorem extractText_idempotent_on_plain_text_witness :
    extractText (extractText c3WIn) = extractText c3WIn :=
  extractText_idempotent_on_plain_text c3WIn (by decide) (by decide)

/-- Claim C4: on the two-heading example document, extraction returns exactly
the two sections Intro/Hello world. and Next/Bye., in order. -/
theorem extractSections_two_headings_example :
    extractSections c4In =
      [{ title := "Intro".toList, content := "Hello world.".toList },
       { title := "Next".toList, content := "Bye.".toList }] := by
  decide

/-- Claim C2, counterexample: the document whose only heading has an empty
title but is followed by non-empty text yields no section at all, so no
returned section carries that heading's (empty) title either. -/
theorem emptyTitle_heading_no_section_cex :
    headingsOf c2CexIn ≠ [] ∧
      (headingsOf c2CexIn).map Heading.title = [[]] ∧
      extractText (pySlice c2CexIn 9 c2CexIn.length) = ("Hi there".toList) ∧
      extractSections c2CexIn = [] :=
  ⟨by decide, by decide, by decide, by decide⟩

/-- Claim C2 (amended): when some heading has a non-empty cleaned title and
non-empty following text, `extract_sections` returns at least one section
whose title equals such a heading's decoded, tag-stripped, trimmed title (in
fact the first such heading's). -/
theorem heading_with_title_and_text_yields_section (html : List Char)
    (h : (headingSpans html).any qualifiesB = true) :
    ∃ sec ∈ extractSections html, ∃ p ∈ headingSpans html,
      qualifiesB p = true ∧ sec.title = p.1.title := by
  obtain ⟨p, hp, hq, rest, heq⟩ := sectionsOfSpans_first_qualifying (headingSpans html) h
  have hHS : headingSections html =
      { title := p.1.title, content := extractText p.2 } :: rest := heq
  refine ⟨{ title := p.1.title, content := extractText p.2 }, ?_, p, hp, hq, rfl⟩
  unfold extractSections
  rw [hHS, if_neg (by simp)]
  have ht : List.take 10 ({ title := p.1.title, content := extractText p.2 } :: rest) =
      { title := p.1.title, content := extractText p.2 } :: List.take 9 rest := rfl
  rw [ht]
  exact List.mem_cons_self _ _

/-- Witness for the amended claim C2 at a concrete input. -/
theorem heading_with_title_and_text_yields_section_witness :
    ∃ sec ∈ extractSections c2WIn, ∃ p ∈ headingSpans c2WIn,
      qualifiesB p = true ∧ sec.title = p.1.title :=
  heading_with_title_and_text_yields_section c2WIn (by decide)

/-- Claim C5: every returned section's content holds at most six paragraphs,
paragraphs being the pieces cut at blank lines. -/
theorem section_content_at_most_six_paragraphs {html : List Char} {sec : Section}
    (h : sec ∈ extractSections html) : (splitParas sec.content).length ≤ 6 := by
  obtain ⟨_, _, hnl⟩ := extractSections_props h
  rw [splitParas_no_nl hnl]
  simp

/-- Witness for claim C5 at a concrete input. -/
theorem section_content_at_most_six_paragraphs_witness :
    (splitParas ("Five words of content here".toList)).length ≤ 6 :=
  @section_content_at_most_six_paragraphs c5WIn
    (Section.mk ("W".toList) ("Five words of content here".toList)) (by decide)

/-- Claim C6: the returned section list never exceeds ten entries, on either
path. -/
theorem extractSections_length_le_ten (html : List Char) :
    (extractSections html).length ≤ 10 := by
  unfold extractSections
  rw [List.length_take]
  exact Nat.min_le_left 10 _

/-- Claim C7, counterexample: the working span's single paragraph has exactly
fifty characters, yet the noise filter discards it, so a paragraph of length
at least fifty does not survive. -/
theorem noise_filter_fifty_char_cex :
    extractText (workingSpan c7CexIn) = aPara50 ∧
      aPara50.length = 50 ∧
      splitParas (extractText (workingSpan c7CexIn)) = [aPara50] ∧
      pyStrip aPara50 = aPara50 ∧
      fallbackParagraphs c7CexIn = [] :=
  ⟨by decide, by decide, by decide, by decide, by decide⟩

/-- Claim C7 (amended): the fallback noise filter keeps exactly the stripped
paragraphs strictly longer than fifty characters: every survivor has length
greater than fifty, and every stripped paragraph of length greater than fifty
survives. -/
theorem noise_filter_keeps_exactly_long_paragraphs (html : List Char) (p : List Char) :
    (p ∈ fallbackParagraphs html → 50 < p.length) ∧
      (p ∈ (splitParas (extractText (workingSpan html))).map pyStrip →
        50 < p.length → p ∈ fallbackParagraphs html) := by
  constructor
  · intro hp
    unfold fallbackParagraphs at hp
    rw [List.mem_filter] at hp
    have h2 := hp.2
    simp only [Bool.and_eq_true, decide_eq_true_eq] at h2
    exact h2.2
  · intro hp hlen
    unfold fallbackParagraphs
    rw [List.mem_filter]
    refine ⟨hp, ?_⟩
    simp only [Bool.and_eq_true, decide_eq_true_eq]
    refine ⟨?_, hlen⟩
    cases hb : p.isEmpty with
    | false => simp
    | true =>
      rw [List.isEmpty_iff] at hb
      rw [hb] at hlen
      exact absurd hlen (by decide)

/-- Witness for the amended claim C7 at a concrete input. -/
theorem noise_filter_keeps_exactly_long_paragraphs_witness :
    50 < bPara60.length ∧ bPara60 ∈ fallbackParagraphs c7WIn :=
  ⟨(noise_filter_keeps_exactly_long_paragraphs c7WIn bPara60).1 (by decide),
   (noise_filter_keeps_exactly_long_paragraphs c7WIn bPara60).2 (by decide) (by decide)⟩

/-- Claim C8: every returned section has non-empty title and content,
heading-path titles keep document order (a sublist of the heading titles),
and a heading with an empty title followed by non-empty text yields no
section. -/
theorem sections_nonempty_and_in_order :
    (∀ (html : List Char) (sec : Section), sec ∈ extractSections html →
        sec.title ≠ [] ∧ sec.content ≠ []) ∧
      (∀ html : List Char, List.Sublist ((headingSections html).map Section.title)
        ((headingsOf html).map Heading.title)) ∧
      (headingsOf c8CexIn).map Heading.title = [[]] ∧
      extractText (pySlice c8CexIn 9 c8CexIn.length) ≠ [] ∧
      extractSections c8CexIn = [] := by
  refine ⟨?_, headingSections_titles_sublist, by decide, by decide, by decide⟩
  intro html sec h
  obtain ⟨h1, h2, _⟩ := extractSections_props h
  exact ⟨h1, h2⟩

/-- Witness for claim C8 at a concrete input. -/
theorem sections_nonempty_and_in_order_witness :
    (Section.mk ("Head".toList) ("Words here".toList)).title ≠ [] ∧
      (Section.mk ("Head".toList) ("Words here".toList)).content ≠ [] :=
  sections_nonempty_and_in_order.1 c8WIn
    (Section.mk ("Head".toList) ("Words here".toList)) (by decide)

/-- Claim C9: both extraction operations are total Lean functions here, and
on the empty string or whitespace-only strings they return empty results. -/
theorem extractor_total_on_empty_and_whitespace :
    (extractText [] = [] ∧ extractSections [] = []) ∧
      ∀ s : List Char, s.all pyIsSpace = true →
        extractText s = [] ∧ extractSections s = [] := by
  refine ⟨⟨rfl, by decide⟩, ?_⟩
  intro s hall
  exact ⟨extractText_all_ws hall,
    extractSections_no_lt (not_mem_of_all_ws hall (by decide))⟩

/-- Witness for claim C9 at a concrete input. -/
theorem extractor_total_on_empty_and_whitespace_witness :
    extractText c9WIn = [] ∧ extractSections c9WIn = [] :=
  extractor_total_on_empty_and_whitespace.2 c9WIn (by decide)

/-- Claim C10: the output of `extract_text` never contains a newline, and
consequently every heading-path section's content is exactly one paragraph. -/
theorem extractText_no_newline_single_paragraph :
    (∀ s : List Char, '\n' ∉ extractText s) ∧
      ∀ (html : List Char) (sec : Section), sec ∈ headingSections html →
        splitParas sec.content = [sec.content] := by
  refine ⟨extractText_noNl, ?_⟩
  intro html sec h
  obtain ⟨_, _, hnl⟩ := headingSections_props h
  exact splitParas_no_nl hnl

/-- Witness for claim C10 at a concrete input. -/
theorem extractText_no_newline_single_paragraph_witness :
    '\n' ∉ extractText c10WIn ∧
      splitParas ((Section.mk ("T4".toList) ("Content words".toList)).content) =
        [(Section.mk ("T4".toList) ("Content words".toList)).content] :=
  ⟨extractText_no_newline_single_paragraph.1 c10WIn,
   extractText_no_newline_single_paragraph.2 c10WIn
     (Section.mk ("T4".toList) ("Content words".toList)) (by decide)⟩
